import Mathlib

/-!
Verification of the AI-CV-Builder tailoring-and-rendering core.

The JavaScript services (`keywordService`, `claudeService`, `contentService`,
`latexService`) are shallowly embedded: strings are lists of characters,
JavaScript numbers are rationals, fallible operations return `Except` or
`Option`, and the generative-text dependency and the compiler subprocess are
modelled as explicit oracles.  Each theorem at the end of the file settles one
specification claim against these embeddings.
-/

/-- JavaScript strings are modelled as lists of characters. -/
abbrev Str := List Char

/-- ASCII lower-casing of one character (model of `String.prototype.toLowerCase`
on the ASCII range, which is the range the services manipulate). -/
def lowerChar (c : Char) : Char :=
  if 'A' ≤ c ∧ c ≤ 'Z' then Char.ofNat (c.toNat + 32) else c

/-- Lower-case a whole string, as `s.toLowerCase()` does. -/
def lowerStr (s : Str) : Str := s.map lowerChar

namespace KeywordService

/-- A keyword derived from the user profile (`extractUserKeywords` output
shape): a text plus a weight. -/
structure UserKw where
  keyword : Str
  weight : ℚ
deriving DecidableEq, Repr

/-- A job keyword as consumed by the scorer: the code accepts either a bare
string or a `{keyword, weight, ...}` object. -/
inductive JobKw where
  | str : Str → JobKw
  | obj : Str → ℚ → JobKw
deriving DecidableEq, Repr

/-- The keyword text of a job keyword (`typeof jk === 'string' ? jk : jk.keyword`). -/
def jkText : JobKw → Str
  | .str s => s
  | .obj s _ => s

/-- The weight of a job keyword (`typeof jk === 'object' ? jk.weight : 1.0`). -/
def jkWeight : JobKw → ℚ
  | .str _ => 1
  | .obj _ w => w

/-- One entry of the `matches` array built by `findKeywordMatches`. -/
structure Match where
  keyword : Str
  jobWeight : ℚ
  userWeight : ℚ
  matchStrength : ℚ
deriving DecidableEq, Repr

/-- `calculateMatchStrength`: exact case-insensitive equality gives strength
1.0, anything else the 0.8 "partial match" constant. -/
def calculateMatchStrength (userKeyword : UserKw) (jobKeyword : JobKw) : ℚ :=
  if lowerStr userKeyword.keyword = lowerStr (jkText jobKeyword) then 1 else 4/5

/-- The `userKeywordMap` lookup: the JavaScript `Map` is built by one `set`
per user keyword, keyed on the lower-cased keyword, so a `get` returns the
value of the last `set` with that key.  The fold mirrors the `forEach`. -/
def userMapGet (userKeywords : List UserKw) (key : Str) : Option UserKw :=
  userKeywords.foldl
    (fun acc uk => if lowerStr uk.keyword = key then some uk else acc) none

/-- `findKeywordMatches`: for each job keyword whose lower-cased text is a key
of the user-keyword map, record a match; then sort by match strength,
descending. -/
def findKeywordMatches (userKeywords : List UserKw) (jobKeywords : List JobKw) :
    List Match :=
  let ms := jobKeywords.filterMap (fun jk =>
    match userMapGet userKeywords (lowerStr (jkText jk)) with
    | some userMatch =>
        some { keyword := jkText jk
               jobWeight := jkWeight jk
               userWeight := userMatch.weight
               matchStrength := calculateMatchStrength userMatch jk }
    | none => none)
  ms.mergeSort (fun a b => decide (b.matchStrength ≤ a.matchStrength))

/-- `calculateMatchScore`: 0 on an empty job-keyword list, otherwise the
rounded percentage of strength-weighted matched weight over total job weight. -/
def calculateMatchScore (ms : List Match) (jobKeywords : List JobKw) : ℤ :=
  if jobKeywords = [] then 0
  else
    let totalJobWeight := (jobKeywords.map jkWeight).sum
    let matchedWeight := (ms.map (fun m => m.jobWeight * m.matchStrength)).sum
    round (matchedWeight / totalJobWeight * 100)

/-- Does some candidate keyword equal this job keyword, case-insensitively?
(The spec's notion of a matched job keyword.) -/
def specMatched (userKeywords : List UserKw) (jk : JobKw) : Prop :=
  ∃ uk ∈ userKeywords, lowerStr uk.keyword = lowerStr (jkText jk)

instance (u : List UserKw) (jk : JobKw) : Decidable (specMatched u jk) := by
  unfold specMatched; infer_instance

/-- The match score exactly as the specification words it:
`round(100 × Σ(weight of matched job keywords) / Σ(weight of all job
keywords))`, and 0 when the job keyword set is empty. -/
def specMatchScore (userKeywords : List UserKw) (jobKeywords : List JobKw) : ℤ :=
  if jobKeywords = [] then 0
  else
    round (100 * ((jobKeywords.filter (fun jk => decide (specMatched userKeywords jk))).map jkWeight).sum
      / (jobKeywords.map jkWeight).sum)

lemma userMapGet_aux_eq_some {u : List UserKw} {key : Str} :
    ∀ {acc : Option UserKw}, (∀ v, acc = some v → lowerStr v.keyword = key) →
    ∀ {uk : UserKw},
      u.foldl (fun acc uk => if lowerStr uk.keyword = key then some uk else acc) acc
        = some uk → lowerStr uk.keyword = key := by
  induction u with
  | nil => intro acc hacc uk h; exact hacc uk h
  | cons a t ih =>
    intro acc hacc uk h
    simp only [List.foldl_cons] at h
    by_cases hk : lowerStr a.keyword = key
    · rw [if_pos hk] at h
      exact ih (fun v hv => by cases hv; exact hk) h
    · rw [if_neg hk] at h
      exact ih hacc h

lemma userMapGet_eq_some {u : List UserKw} {key : Str} {uk : UserKw}
    (h : userMapGet u key = some uk) : lowerStr uk.keyword = key :=
  userMapGet_aux_eq_some (fun v hv => by cases hv) h

lemma userMapGet_aux_isSome {u : List UserKw} {key : Str} :
    ∀ {acc : Option UserKw},
      (u.foldl (fun acc uk => if lowerStr uk.keyword = key then some uk else acc)
        acc).isSome
        ↔ acc.isSome ∨ ∃ uk ∈ u, lowerStr uk.keyword = key := by
  induction u with
  | nil => simp
  | cons a t ih =>
    intro acc
    simp only [List.foldl_cons]
    by_cases hk : lowerStr a.keyword = key
    · rw [if_pos hk, ih]
      simp [hk]
    · rw [if_neg hk, ih]
      constructor
      · rintro (h | ⟨uk, hm, hkey⟩)
        · exact Or.inl h
        · exact Or.inr ⟨uk, List.mem_cons_of_mem _ hm, hkey⟩
      · rintro (h | ⟨uk, hm, hkey⟩)
        · exact Or.inl h
        · rcases List.mem_cons.mp hm with rfl | hm
          · exact absurd hkey hk
          · exact Or.inr ⟨uk, hm, hkey⟩

lemma userMapGet_isSome_iff {u : List UserKw} {key : Str} :
    (userMapGet u key).isSome ↔ ∃ uk ∈ u, lowerStr uk.keyword = key := by
  unfold userMapGet
  rw [userMapGet_aux_isSome]
  simp

/-- The strength-weighted matched weight equals the plain sum of the weights of
the matched job keywords: every match produced by the lookup has strength 1. -/
lemma matched_sum_eq (u : List UserKw) (j : List JobKw) :
    ((findKeywordMatches u j).map (fun m => m.jobWeight * m.matchStrength)).sum
      = ((j.filter (fun jk => decide (specMatched u jk))).map jkWeight).sum := by
  unfold findKeywordMatches
  rw [((List.mergeSort_perm _ _).map _).sum_eq]
  induction j with
  | nil => simp
  | cons jk rest ih =>
    rw [List.filterMap_cons, List.filter_cons]
    rcases hget : userMapGet u (lowerStr (jkText jk)) with _ | uk
    · have hnot : ¬ specMatched u jk := by
        unfold specMatched
        rw [← @userMapGet_isSome_iff u (lowerStr (jkText jk))]
        simp [hget]
      simp only [hnot, decide_eq_true_eq, if_neg, not_false_iff]
      exact ih
    · have hmatched : specMatched u jk := by
        unfold specMatched
        rw [← @userMapGet_isSome_iff u (lowerStr (jkText jk))]
        simp [hget]
      have hstr : calculateMatchStrength uk jk = 1 := by
        unfold calculateMatchStrength
        rw [if_pos (userMapGet_eq_some hget)]
      simp only [hmatched, decide_eq_true_eq, if_pos, List.map_cons, List.sum_cons, hstr]
      rw [ih]; ring

end KeywordService

namespace KeywordService

/-- A regex word character (`\w`): ASCII letter, digit or underscore. -/
def isWordChar (c : Char) : Bool :=
  ('a' ≤ c && c ≤ 'z') || ('A' ≤ c && c ≤ 'Z') || ('0' ≤ c && c ≤ '9') || c == '_'

/-- Word-character test of an optional character; the edge of the string
counts as a non-word character, as `\b` treats it. -/
def optIsWord : Option Char → Bool
  | none => false
  | some c => isWordChar c

/-- `\b` holds before the match: the previous character and the first pattern
character lie on different sides of the word/non-word divide. -/
def boundaryBefore (prev : Option Char) (p : Str) : Bool :=
  match p with
  | [] => true
  | h :: _ => optIsWord prev != isWordChar h

/-- `\b` holds after the match: the last pattern character and the following
character lie on different sides of the word/non-word divide. -/
def boundaryAfter (p : Str) (rest : Str) : Bool :=
  match p.getLast? with
  | none => true
  | some l => isWordChar l != optIsWord rest.head?

/-- The scan loop counting the non-overlapping, left-to-right matches of
`\b p \b`, given the character preceding the current position (the
global-flag scan of `text.match(regex)`).  The fuel, at least the length of
the remaining text, only forces termination. -/
def countWWGo (p : Str) : ℕ → Option Char → Str → ℕ
  | 0, _, _ => 0
  | fuel + 1, prev, s =>
    match s with
    | [] => 0
    | c :: t =>
      if p ≠ [] ∧ p.isPrefixOf (c :: t) ∧ boundaryBefore prev p = true
          ∧ boundaryAfter p ((c :: t).drop p.length) = true
      then 1 + countWWGo p fuel p.getLast? ((c :: t).drop p.length)
      else countWWGo p fuel (some c) t

/-- Count the matches of `\b p \b` in `s`. -/
def countWholeWordFrom (p : Str) (prev : Option Char) (s : Str) : ℕ :=
  countWWGo p s.length prev s

/-- `calculateFrequency` on the intended path only: a case-insensitive,
global, whole-word count of the keyword taken as literal text.  The code
interpolates the raw keyword into `new RegExp('\\b' + keyword + '\\b', 'gi')`,
so this definition is faithful only for keywords without regex
metacharacters: a keyword such as `c++` makes the constructor throw a
SyntaxError (so `rankKeywords` throws instead of scoring), and a `.` in a
keyword matches any character.  No theorem below rests on this definition. -/
def calculateFrequency (keyword text : Str) : ℕ :=
  countWholeWordFrom (lowerStr keyword) none (lowerStr text)

/-- Where a merged keyword came from (`sources` array entries). -/
inductive Src where
  | claude
  | basic
deriving DecidableEq, Repr

/-- A keyword after `mergeKeywords`: text, weight and provenance list. -/
structure MergedKw where
  keyword : Str
  weight : ℚ
  sources : List Src
deriving DecidableEq, Repr

/-- A keyword as returned by `rankKeywords`, carrying the added `frequency`
and `finalScore` fields. -/
structure RankedKw extends MergedKw where
  frequency : ℕ
  finalScore : ℚ
deriving DecidableEq, Repr

/-- `calculateFinalScore`: `(keyword.weight || 1.0) + frequency*0.1 +
(0.2 if 'claude' ∈ sources)`. -/
def calculateFinalScore (k : MergedKw) (text : Str) : ℚ :=
  let baseWeight : ℚ := if k.weight = 0 then 1 else k.weight
  let frequency : ℚ := calculateFrequency k.keyword text
  let sourceBonus : ℚ := if Src.claude ∈ k.sources then 1/5 else 0
  baseWeight + frequency * (1/10) + sourceBonus

/-- `rankKeywords`: annotate each merged keyword with its frequency and final
score, sort by final score descending, keep the top 20. -/
def rankKeywords (keywords : List MergedKw) (originalText : Str) : List RankedKw :=
  ((keywords.map (fun k =>
      { toMergedKw := k
        frequency := calculateFrequency k.keyword originalText
        finalScore := calculateFinalScore k originalText })).mergeSort
    (fun a b => decide (b.finalScore ≤ a.finalScore))).take 20

end KeywordService

namespace ContentService

/-- A whitespace character as matched by the regex class `\s` (ASCII range). -/
def isWS (c : Char) : Bool :=
  c == ' ' || (9 ≤ c.toNat && c.toNat ≤ 13)

/-- The scan loop of `s.split(/\s+/)`; the fuel, at least the length of the
remaining text, only forces termination. -/
def jsSplitWsGo : ℕ → Str → Str → List Str
  | _, [], cur => [cur.reverse]
  | 0, _, cur => [cur.reverse]
  | fuel + 1, c :: t, cur =>
    if isWS c then cur.reverse :: jsSplitWsGo fuel (t.dropWhile isWS) []
    else jsSplitWsGo fuel t (c :: cur)

/-- `s.split(/\s+/)`: fields between maximal whitespace runs, keeping the
empty leading/trailing fields JavaScript produces. -/
def jsSplitWs (s : Str) : List Str :=
  jsSplitWsGo s.length s []

/-- The scan loop of `text.match(/\b\w+\b/g) || []`; fuel as above. -/
def wordRunsGo : ℕ → Str → List Str
  | _, [] => []
  | 0, _ => []
  | fuel + 1, c :: t =>
    if KeywordService.isWordChar c then
      (c :: t.takeWhile KeywordService.isWordChar)
        :: wordRunsGo fuel (t.dropWhile KeywordService.isWordChar)
    else wordRunsGo fuel t

/-- `text.match(/\b\w+\b/g) || []`: the maximal runs of word characters. -/
def wordRuns (s : Str) : List Str :=
  wordRunsGo s.length s

/-- A work-experience entry as the tailoring code reads it (`bullets` already
reduced to their text; a missing `end_date` is the empty, falsy string). -/
structure Exp where
  company : Str
  role : Str
  startDate : Str
  endDate : Str
  bullets : List Str
deriving DecidableEq, Repr

/-- The lower-cased keyword set `new Set(keywords.map(k => (...).toLowerCase()))`. -/
def keywordSetOf (keywords : List KeywordService.JobKw) : List Str :=
  keywords.map (fun k => lowerStr (KeywordService.jkText k))

/-- `calculateExperienceRelevance`: +2 per role-title word in the keyword set,
+1 per bullet-text word occurrence in the keyword set. -/
def calculateExperienceRelevance (experience : Exp)
    (keywords : List KeywordService.JobKw) : ℕ :=
  let keywordSet := keywordSetOf keywords
  let roleWords := jsSplitWs (lowerStr experience.role)
  let roleScore := roleWords.foldl
    (fun score word => if keywordSet.contains word then score + 2 else score) 0
  experience.bullets.foldl
    (fun score bullet =>
      (wordRuns (lowerStr bullet)).foldl
        (fun s w => if keywordSet.contains w then s + 1 else s) score)
    roleScore

/-- The relevance score exactly as the specification words it: `2×(role-title
keyword overlaps) + 1×(bullet-text keyword overlaps, per occurrence)`. -/
def specExperienceRelevance (experience : Exp)
    (keywords : List KeywordService.JobKw) : ℕ :=
  2 * (jsSplitWs (lowerStr experience.role)).countP
        (fun w => (keywordSetOf keywords).contains w)
    + (experience.bullets.map (fun bullet =>
        (wordRuns (lowerStr bullet)).countP
          (fun w => (keywordSetOf keywords).contains w))).sum

/-- The ordering of the stable descending sort used by
`selectAndEnhanceExperience` (`sort((a,b) => b.relevanceScore -
a.relevanceScore)`), made explicit over indexed entries: JavaScript's sort is
stable, so its result is ordered by score descending with equal scores kept
in original order. -/
def expRel (keywords : List KeywordService.JobKw) (a b : ℕ × Exp) : Prop :=
  calculateExperienceRelevance b.2 keywords
      < calculateExperienceRelevance a.2 keywords
    ∨ (calculateExperienceRelevance a.2 keywords
          = calculateExperienceRelevance b.2 keywords ∧ a.1 ≤ b.1)

instance (keywords : List KeywordService.JobKw) :
    DecidableRel (expRel keywords) := by
  unfold expRel; infer_instance

/-- The scored experience list after the stable descending sort. -/
def sortedScored (experiences : List Exp) (keywords : List KeywordService.JobKw) :
    List (ℕ × Exp) :=
  List.insertionSort (expRel keywords) experiences.enum

/-- The original positions of the experiences kept by the top-4 selection. -/
def selectedIndices (experiences : List Exp)
    (keywords : List KeywordService.JobKw) : List ℕ :=
  ((sortedScored experiences keywords).take 4).map Prod.fst

/-- `enhanceExperienceBullets`: keep at most the first 4 bullets; each is sent
to the rewrite oracle, and a failed rewrite keeps the original bullet. -/
def enhanceExperienceBullets (experience : Exp)
    (rewrite : Str → Option Str) : List Str :=
  (experience.bullets.take 4).map (fun bullet => (rewrite bullet).getD bullet)

/-- A tailored experience entry as assembled by `selectAndEnhanceExperience`. -/
structure OutExp where
  company : Str
  role : Str
  dates : Str
  bullets : List Str
  relevanceScore : ℕ
deriving DecidableEq, Repr

/-- `selectAndEnhanceExperience`: score, sort descending (stable), keep the
top 4, then enhance each kept entry's bullets. -/
def selectAndEnhanceExperience (experiences : List Exp)
    (keywords : List KeywordService.JobKw) (rewrite : Str → Option Str) :
    List OutExp :=
  ((sortedScored experiences keywords).take 4).map (fun p =>
    { company := p.2.company
      role := p.2.role
      dates := p.2.startDate ++ " - ".toList
        ++ (if p.2.endDate = [] then "Present".toList else p.2.endDate)
      bullets := enhanceExperienceBullets p.2 rewrite
      relevanceScore := calculateExperienceRelevance p.2 keywords })

/-- A project as the tailoring code reads it (missing description is the
empty, falsy string). -/
structure Project where
  name : Str
  description : Str
  technologies : List Str
  startDate : Str
  endDate : Str
  url : Str
deriving DecidableEq, Repr

/-- The project relevance score of `selectRelevantProjects`: +2 per name word,
+1 per description word occurrence, +3 per technology tag in the keyword set. -/
def projectRelevance (project : Project)
    (keywords : List KeywordService.JobKw) : ℕ :=
  let keywordSet := keywordSetOf keywords
  let nameScore := (jsSplitWs (lowerStr project.name)).foldl
    (fun score word => if keywordSet.contains word then score + 2 else score) 0
  let descScore := (wordRuns (lowerStr project.description)).foldl
    (fun score word => if keywordSet.contains word then score + 1 else score)
    nameScore
  project.technologies.foldl
    (fun score tech => if keywordSet.contains (lowerStr tech) then score + 3
      else score)
    descScore

/-- The stable descending ordering for projects. -/
def projRel (keywords : List KeywordService.JobKw) (a b : ℕ × Project) : Prop :=
  projectRelevance b.2 keywords < projectRelevance a.2 keywords
    ∨ (projectRelevance a.2 keywords = projectRelevance b.2 keywords
        ∧ a.1 ≤ b.1)

instance (keywords : List KeywordService.JobKw) :
    DecidableRel (projRel keywords) := by
  unfold projRel; infer_instance

/-- `selectRelevantProjects`: score each project, sort descending (stable),
return the top 3 (with the score field dropped again). -/
def selectRelevantProjects (projects : List Project)
    (keywords : List KeywordService.JobKw) : List Project :=
  ((List.insertionSort (projRel keywords) projects.enum).take 3).map Prod.snd

/-- `generateTailoredSkills`: on a successful skills call, user skills that
match job keywords first, then not-yet-present suggested skills, then the
remaining user skills, capped at 15; on failure the user skills capped at 12. -/
def generateTailoredSkills (userSkills : List Str)
    (claudeSkills : Option (List Str))
    (jobKeywords : List KeywordService.JobKw) : List Str :=
  match claudeSkills with
  | some suggested =>
      let jobKeywordSet := keywordSetOf jobKeywords
      let matching := userSkills.filter
        (fun skill => jobKeywordSet.contains (lowerStr skill))
      let addNew := fun (acc : List Str) (skill : Str) =>
        if acc.any (fun ps => lowerStr ps = lowerStr skill) then acc
        else acc ++ [skill]
      let withSuggested := suggested.foldl addNew matching
      let withRest := userSkills.foldl addNew withSuggested
      withRest.take 15
  | none => userSkills.take 12

end ContentService

namespace ClaudeService

/-- The outcome of one `client.messages.create` call: a content string, or a
failure carrying the HTTP status when there is one (transport errors and
other thrown values have none). -/
inductive ApiResult where
  | success : Str → ApiResult
  | failure : Option ℕ → ApiResult
deriving DecidableEq, Repr

/-- How a `makeRequest` invocation ends. -/
inductive ReqOutcome where
  | ok : Str → ReqOutcome
  | clientError : ℕ → ReqOutcome
  | exhausted : ReqOutcome
deriving DecidableEq, Repr

/-- `this.maxRetries` — the loop bound `for (attempt = 1; attempt <= maxRetries; ...)`. -/
def maxRetries : ℕ := 3

/-- `this.retryDelay` in milliseconds. -/
def retryDelay : ℕ := 1000

/-- One pass of the `makeRequest` retry loop.  `responses` maps the attempt
number to that attempt's API result; the fuel equals the remaining allowed
attempts.  Returns the outcome, the number of attempts performed and the
backoff delays slept (`retryDelay * 2^(attempt-1)` before each retry).  An
empty content string throws inside the `try` and is handled like a
status-less failure, exactly as the code's `if (!content) throw` is. -/
def makeRequestGo (responses : ℕ → ApiResult) : ℕ → ℕ → ReqOutcome × ℕ × List ℕ
  | _, 0 => (.exhausted, 0, [])
  | attempt, fuel + 1 =>
    let r := responses attempt
    let content : Option Str := match r with
      | .success c => if c = [] then none else some c
      | .failure _ => none
    match content with
    | some c => (.ok c, 1, [])
    | none =>
      let st : Option ℕ := match r with
        | .failure st => st
        | .success _ => none
      let isClient : Bool := match st with
        | some s => decide (400 ≤ s ∧ s < 500 ∧ s ≠ 429)
        | none => false
      if isClient then
        (.clientError (st.getD 0), 1, [])
      else if attempt = maxRetries then
        (.exhausted, 1, [])
      else
        let rest := makeRequestGo responses (attempt + 1) fuel
        (rest.1, rest.2.1 + 1, retryDelay * 2 ^ (attempt - 1) :: rest.2.2)

/-- `makeRequest`: run the retry loop from attempt 1 with `maxRetries` fuel. -/
def makeRequest (responses : ℕ → ApiResult) : ReqOutcome × ℕ × List ℕ :=
  makeRequestGo responses 1 maxRetries

/-- A retryable failure in the sense of the specification: a server error
(5xx) or the rate-limit status 429. -/
def serverErr (r : ApiResult) : Prop :=
  ∃ s, r = ApiResult.failure (some s) ∧ (s = 429 ∨ 500 ≤ s)

/-- ASCII whitespace for `String.prototype.trim`. -/
def jsTrim (s : Str) : Str :=
  ((s.dropWhile ContentService.isWS).reverse.dropWhile ContentService.isWS).reverse

/-- `response.replace(/^["']|["']$/g, '')`: drop one leading and one trailing
quote character. -/
def stripQuotes (s : Str) : Str :=
  let s1 := match s with
    | c :: t => if c = '"' ∨ c = '\'' then t else s
    | [] => []
  match s1.getLast? with
  | some c => if c = '"' ∨ c = '\'' then s1.dropLast else s1
  | none => s1

/-- `parts.join(sep)`. -/
def joinSep (sep : Str) (parts : List Str) : Str :=
  List.intercalate sep parts

/-- The scanning loop of `String.prototype.split` on a literal separator; the
fuel, at least the length of the remaining text, only forces termination. -/
def splitOnGo (sep : Str) : ℕ → Str → Str → List Str
  | _, [], cur => [cur.reverse]
  | 0, _, cur => [cur.reverse]
  | fuel + 1, c :: t, cur =>
    if sep ≠ [] ∧ sep.isPrefixOf (c :: t) then
      cur.reverse :: splitOnGo sep fuel ((c :: t).drop sep.length) []
    else
      splitOnGo sep fuel t (c :: cur)

/-- `s.split(sep)` for a literal separator string. -/
def jsSplitOn (sep s : Str) : List Str :=
  splitOnGo sep s.length s []

/-- The user profile shape read by the summary generators. -/
structure UserProfile where
  personalName : Option Str
  workExperience : List ContentService.Exp
  skills : List Str
deriving Repr

/-- `ClaudeService.generateSummary`: the top-8 keyword list feeds the prompt;
on a successful call the trimmed, unquoted response is returned, and on any
failure the service's own catch block returns its generic templated fallback
built from the first three entries of the joined keyword list — the profile
is not consulted on that path. -/
def generateSummary (userProfile : UserProfile)
    (keywords : List KeywordService.JobKw) (api : Option Str) : Str :=
  let keywordList := joinSep ", ".toList
    ((keywords.take 8).map KeywordService.jkText)
  match api with
  | some response => stripQuotes (jsTrim response)
  | none =>
      "Experienced professional with expertise in ".toList
        ++ joinSep ", ".toList ((jsSplitOn ", ".toList keywordList).take 3)
        ++ ". Proven track record of delivering results in dynamic environments. Seeking to leverage skills and experience in a challenging new role.".toList

end ClaudeService

namespace ContentService

/-- `ContentService.generateFallbackSummary`: the summary the documentation
says is produced "when Claude API fails" — first name, experience count and
top-3 keywords. -/
def generateFallbackSummary (userProfile : ClaudeService.UserProfile)
    (keywords : List KeywordService.JobKw) : Str :=
  let name := match userProfile.personalName with
    | some n => if n = [] then "Professional".toList else n
    | none => "Professional".toList
  let experienceCount := userProfile.workExperience.length
  let topSkills := ClaudeService.joinSep ", ".toList
    ((keywords.take 3).map KeywordService.jkText)
  "Experienced ".toList
    ++ ((ClaudeService.jsSplitOn [' '] name).headD [])
    ++ " with ".toList ++ (toString experienceCount).toList
    ++ "+ years of professional experience. Skilled in ".toList ++ topSkills
    ++ " with a proven track record of delivering results. Seeking to leverage expertise in a challenging new role.".toList

/-- `ContentService.generateTailoredSummary`: it simply awaits
`claudeService.generateSummary`; its catch block (which would call
`generateFallbackSummary`) is unreachable when the dependency fails, because
`claudeService.generateSummary` already absorbs the failure and returns its
own fallback string. -/
def generateTailoredSummary (userProfile : ClaudeService.UserProfile)
    (keywords : List KeywordService.JobKw) (api : Option Str) : Str :=
  ClaudeService.generateSummary userProfile keywords api

end ContentService

namespace LatexService

/-- `s.replace(/c/g, repl)` for a single character pattern and a replacement
string without `$`-patterns, as every stage of `escapeLatex` is. -/
def replaceChar (c : Char) (repl : Str) (s : Str) : Str :=
  s.flatMap (fun x => if x = c then repl else [x])

/-- `escapeLatex`: the ten sequential global replaces of the source.  Note the
order: the braces of the `\textbackslash{}` produced by the first stage are
escaped again by the second and third stages, while the braces produced by the
caret and tilde stages stay as they are. -/
def escapeLatex (text : Str) : Str :=
  let s1 := replaceChar '\\' "\\textbackslash\x7b\x7d".toList text
  let s2 := replaceChar '{' "\\\x7b".toList s1
  let s3 := replaceChar '}' "\\\x7d".toList s2
  let s4 := replaceChar '$' "\\$".toList s3
  let s5 := replaceChar '&' "\\&".toList s4
  let s6 := replaceChar '%' "\\%".toList s5
  let s7 := replaceChar '#' "\\#".toList s6
  let s8 := replaceChar '^' "\\textasciicircum\x7b\x7d".toList s7
  let s9 := replaceChar '_' "\\_".toList s8
  replaceChar '~' "\\textasciitilde\x7b\x7d".toList s9

/-- The per-character image of the whole `escapeLatex` chain. -/
def escChar (c : Char) : Str :=
  if c = '\\' then "\\textbackslash\\\x7b\\\x7d".toList
  else if c = '{' then "\\\x7b".toList
  else if c = '}' then "\\\x7d".toList
  else if c = '$' then "\\$".toList
  else if c = '&' then "\\&".toList
  else if c = '%' then "\\%".toList
  else if c = '#' then "\\#".toList
  else if c = '^' then "\\textasciicircum\x7b\x7d".toList
  else if c = '_' then "\\_".toList
  else if c = '~' then "\\textasciitilde\x7b\x7d".toList
  else [c]

/-- One of the characters the claim calls control characters. -/
def ctlChar (c : Char) : Bool :=
  c = '&' || c = '%' || c = '$'

/-- Scan for a control character not immediately preceded by a backslash,
threading the previous character. -/
def ctlEscapedFrom (prev : Option Char) : Str → Bool
  | [] => true
  | c :: t => (!(ctlChar c) || prev == some '\\') && ctlEscapedFrom (some c) t

/-- Every `&`, `%`, `$` of the string is immediately preceded by `\`. -/
def ctlEscaped (s : Str) : Bool := ctlEscapedFrom none s

/-- A character that may legitimately follow a backslash in `escapeLatex`
output: each escape sequence the escaper emits starts with `\` and one of
these. -/
def allowedAfterBS (c : Char) : Bool :=
  c = 't' || c = '{' || c = '}' || c = '$' || c = '&' || c = '%' || c = '#'
    || c = '_'

/-- Every backslash of the string begins one of the escape sequences emitted
by `escapeLatex`; a backslash before any other character (or at the end) is a
raw control character. -/
def bsEscaped : Str → Bool
  | [] => true
  | c :: t =>
    if c = '\\' then
      match t with
      | [] => false
      | d :: _ => allowedAfterBS d && bsEscaped t
    else bsEscaped t

/-- A character that makes a preceding `$` active in a JavaScript `replace`
replacement string with no capture groups. -/
def badAfterDollar (c : Char) : Bool :=
  c = '$' || c = '&' || c = '`' || c = '\''

/-- Scan for an active `$`-pattern; `pending` records whether the previous
character was `$`. -/
def afGo (pending : Bool) : Str → Bool
  | [] => true
  | c :: t => (!pending || !(badAfterDollar c)) && afGo (c == '$') t

/-- The string, used as a `replace` replacement, is taken literally: it has no
`$$`, `$&`, `` $` `` or `$'`. -/
def activeFree (s : Str) : Bool := afGo false s

/-- Scan a source value for `` $` `` or `$'`. -/
def noDollarTickGo (pending : Bool) : Str → Bool
  | [] => true
  | c :: t => (!pending || !(c = '`' || c = '\'')) && noDollarTickGo (c == '$') t

/-- The value contains neither `` $` `` nor `$'` as a substring. -/
def noDollarTick (s : Str) : Bool := noDollarTickGo false s

/-- ECMAScript `GetSubstitution` for a pattern with no capture groups:
`$$` inserts `$`, `$&` the matched text, `` $` `` the part of the subject
before the match, `$'` the part after it; anything else is literal. -/
def expandRepl (before matched after : Str) : Str → Str
  | [] => []
  | c :: t =>
    if c = '$' then
      match t with
      | [] => [c]
      | d :: r =>
        if d = '$' then '$' :: expandRepl before matched after r
        else if d = '&' then matched ++ expandRepl before matched after r
        else if d = '`' then before ++ expandRepl before matched after r
        else if d = '\'' then after ++ expandRepl before matched after r
        else c :: expandRepl before matched after (d :: r)
    else c :: expandRepl before matched after t

/-- The scan loop of `s.replace(regex, repl)` for a global regex matching a
literal pattern: find each match left to right, emit the substitution of the
replacement string, continue after the match.  `consumed` is the part of the
original subject before the current position; the fuel, at least the length
of the remaining text, only forces termination. -/
def jsReplaceAllGo (pat repl : Str) : ℕ → Str → Str → Str
  | 0, rest, _ => rest
  | fuel + 1, rest, consumed =>
    match rest with
    | [] => []
    | c :: t =>
      if pat ≠ [] ∧ pat.isPrefixOf (c :: t) then
        expandRepl consumed pat ((c :: t).drop pat.length) repl
          ++ jsReplaceAllGo pat repl fuel ((c :: t).drop pat.length)
              (consumed ++ pat)
      else c :: jsReplaceAllGo pat repl fuel t (consumed ++ [c])

/-- `s.replace(new RegExp(pat, 'g'), repl)` for a literal pattern `pat`. -/
def jsReplaceAll (pat repl s : Str) : Str :=
  jsReplaceAllGo pat repl s.length s []

/-- A skill as `formatSkills` reads it: a bare string or an object with a
name and a category (the empty category models a missing/falsy one). -/
inductive SkillV where
  | str : Str → SkillV
  | obj : Str → Str → SkillV
deriving DecidableEq, Repr

/-- `typeof skill === 'string' ? skill : (skill.name || String(skill))`. -/
def skillNameOf : SkillV → Str
  | .str s => s
  | .obj n _ => if n = [] then "[object Object]".toList else n

/-- `skill && typeof skill === 'object' && skill.category`. -/
def skillHasCategory : SkillV → Bool
  | .str _ => false
  | .obj _ c => c ≠ []

/-- `skill.category || 'Technical'`. -/
def skillCategoryOf : SkillV → Str
  | .str _ => "Technical".toList
  | .obj _ c => if c = [] then "Technical".toList else c

/-- One `forEach` step of the category grouping: create the category slot if
needed, then push the name when it is truthy. -/
def addSkill (cats : List (Str × List Str)) (cat name : Str) :
    List (Str × List Str) :=
  if cats.any (fun p => p.1 = cat) then
    cats.map (fun p =>
      if p.1 = cat then (p.1, p.2 ++ (if name ≠ [] then [name] else [])) else p)
  else
    cats ++ [(cat, if name ≠ [] then [name] else [])]

/-- `formatSkills`: grouped by category when any skill has one, otherwise a
comma-separated list. -/
def formatSkills (skills : List SkillV) : Str :=
  if skills = [] then []
  else if skills.any skillHasCategory then
    let cats := skills.foldl
      (fun cats sk => addSkill cats (skillCategoryOf sk) (skillNameOf sk)) []
    ClaudeService.joinSep " \\\\ ".toList
      ((cats.filter (fun p => p.2 ≠ [])).map (fun p =>
        "\\textbf\x7b".toList ++ p.1 ++ ":\x7d ".toList
          ++ ClaudeService.joinSep ", ".toList p.2))
  else
    ClaudeService.joinSep ", ".toList
      ((skills.map skillNameOf).filter (fun n => n ≠ []))

/-- An experience entry as `formatExperience` reads it. -/
structure LExp where
  dates : Str
  role : Str
  company : Str
  bullets : List Str
deriving DecidableEq, Repr

/-- `formatExperience`: one `\cventry` per entry, bullets as an `itemize`
block, entries joined with newlines. -/
def formatExperience (experiences : List LExp) : Str :=
  if experiences = [] then []
  else
    ClaudeService.joinSep "\n".toList (experiences.map (fun exp =>
      let bullets := ClaudeService.joinSep "\n".toList
        ((exp.bullets.filter (fun b => b ≠ [])).map
          (fun b => "\\item ".toList ++ b))
      let bulletsPart :=
        if bullets ≠ [] then
          "\n\\begin\x7bitemize\x7d\n".toList ++ bullets
            ++ "\n\\end\x7bitemize\x7d".toList
        else []
      "\n\\cventry\x7b".toList ++ exp.dates ++ "\x7d\x7b".toList ++ exp.role
        ++ "\x7d\x7b".toList ++ exp.company ++ "\x7d\x7b\x7d\x7b\x7d\x7b".toList
        ++ bulletsPart ++ "\x7d".toList))

/-- A project as `formatProjects` reads it. -/
structure LProject where
  startDate : Str
  endDate : Str
  name : Str
  description : Str
  technologies : List Str
  url : Str
deriving DecidableEq, Repr

/-- `formatProjects`. -/
def formatProjects (projects : List LProject) : Str :=
  if projects = [] then []
  else
    ClaudeService.joinSep "\n".toList (projects.map (fun p =>
      let technologies :=
        if p.technologies ≠ [] then
          " \\textit\x7bTechnologies: ".toList
            ++ ClaudeService.joinSep ", ".toList p.technologies
            ++ "\x7d".toList
        else []
      let url :=
        if p.url ≠ [] then
          " \\href\x7b".toList ++ p.url ++ "\x7d\x7b[Link]\x7d".toList
        else []
      "\n\\cventry\x7b".toList ++ p.startDate ++ " - ".toList ++ p.endDate
        ++ "\x7d\x7b".toList ++ p.name
        ++ "\x7d\x7b\x7d\x7b\x7d\x7b\x7d\x7b\n".toList ++ p.description
        ++ technologies ++ url ++ "\n\x7d".toList))

/-- An education entry as `formatEducation` reads it. -/
structure LEdu where
  dates : Str
  degree : Str
  institution : Str
  gpa : Str
  relevantCourses : List Str
deriving DecidableEq, Repr

/-- `formatEducation`. -/
def formatEducation (education : List LEdu) : Str :=
  if education = [] then []
  else
    ClaudeService.joinSep "\n".toList (education.map (fun e =>
      let gpa :=
        if e.gpa ≠ [] then " (GPA: ".toList ++ e.gpa ++ ")".toList else []
      let courses :=
        if e.relevantCourses ≠ [] then
          " \\textit\x7bRelevant Courses: ".toList
            ++ ClaudeService.joinSep ", ".toList e.relevantCourses
            ++ "\x7d".toList
        else []
      "\n\\cventry\x7b".toList ++ e.dates ++ "\x7d\x7b".toList ++ e.degree
        ++ "\x7d\x7b".toList ++ e.institution ++ "\x7d\x7b\x7d\x7b\x7d\x7b".toList
        ++ gpa ++ courses ++ "\x7d".toList))

/-- The CV data consumed by `createReplacements`; `Option` models a missing
`personal.*` path in `getNestedValue`. -/
structure CVData where
  personalName : Option Str
  personalEmail : Option Str
  personalPhone : Option Str
  personalLinkedIn : Option Str
  personalLocation : Option Str
  personalWebsite : Option Str
  summary : Str
  skills : List SkillV
  experience : List LExp
  projects : List LProject
  education : List LEdu
deriving Repr

/-- Render options; the empty string models a missing/falsy option. -/
structure RenderOptions where
  fontSize : Str
  colorScheme : Str
  margins : Str
deriving Repr

/-- `validateFontSize`: allow-listed sizes, otherwise `null`. -/
def validateFontSize (fontSize : Str) : Option Str :=
  if fontSize ∈ ["10pt".toList, "11pt".toList, "12pt".toList, "14pt".toList,
      "16pt".toList, "18pt".toList] then some fontSize else none

/-- `validateColorScheme`: allow-listed colors, otherwise `null`. -/
def validateColorScheme (colorScheme : Str) : Option Str :=
  if colorScheme ∈ ["blue".toList, "red".toList, "green".toList,
      "purple".toList, "orange".toList, "teal".toList, "black".toList]
  then some colorScheme else none

/-- `getMarginSize`: the margin map with its `normal` default. -/
def getMarginSize (marginType : Str) : Str :=
  if marginType = "narrow".toList then "0.5in".toList
  else if marginType = "normal".toList then "0.75in".toList
  else if marginType = "wide".toList then "1in".toList
  else "0.75in".toList

/-- `createReplacements`: the placeholder/value pairs in insertion order. -/
def createReplacements (cvData : CVData) (options : RenderOptions) :
    List (Str × Str) :=
  [("NAME".toList, cvData.personalName.getD "Your Name".toList),
   ("EMAIL".toList, cvData.personalEmail.getD "your.email@example.com".toList),
   ("PHONE".toList, cvData.personalPhone.getD []),
   ("LINKEDIN".toList, cvData.personalLinkedIn.getD []),
   ("LOCATION".toList, cvData.personalLocation.getD []),
   ("WEBSITE".toList, cvData.personalWebsite.getD []),
   ("SUMMARY".toList, cvData.summary),
   ("SKILLS".toList, formatSkills cvData.skills),
   ("EXPERIENCE".toList, formatExperience cvData.experience),
   ("PROJECTS".toList, formatProjects cvData.projects),
   ("EDUCATION".toList, formatEducation cvData.education),
   ("FONT_SIZE".toList, (validateFontSize options.fontSize).getD "11pt".toList),
   ("COLOR_SCHEME".toList,
     (validateColorScheme options.colorScheme).getD "blue".toList),
   ("MARGIN_SIZE".toList,
     getMarginSize (if options.margins = [] then "normal".toList
       else options.margins))]

/-- `populateTemplate`'s replacement loop: for each placeholder, globally
replace `<<PLACEHOLDER>>` in the template with the escaped value. -/
def populateTemplate (template : Str) (cvData : CVData)
    (options : RenderOptions) : Str :=
  (createReplacements cvData options).foldl
    (fun acc pv =>
      jsReplaceAll ("<<".toList ++ pv.1 ++ ">>".toList) (escapeLatex pv.2) acc)
    template

/-- A character kept by the template-name sanitizer (`[a-zA-Z0-9_-]`). -/
def allowedTN (c : Char) : Bool :=
  ('a' ≤ c && c ≤ 'z') || ('A' ≤ c && c ≤ 'Z') || ('0' ≤ c && c ≤ '9')
    || c == '_' || c == '-'

/-- `sanitizeTemplateName`: `'modern'` for a missing or falsy name, otherwise
strip every character outside `[a-zA-Z0-9_-]`, lower-case, and fall back to
`'modern'` only when nothing is left. -/
def sanitizeTemplateName : Option Str → Str
  | none => "modern".toList
  | some s =>
    if s = [] then "modern".toList
    else
      let sanitized := lowerStr (s.filter allowedTN)
      if sanitized = [] then "modern".toList else sanitized

/-- Modelled from the spec: the installed template documents are not part of
the source tree (only `sanitizeTemplateName` and the `fs.access` check are);
the spec names the allow-list as "modern" and "classic".  The stored contents
are irrelevant to name handling and modelled as empty documents. -/
def specTemplates : Str → Option Str := fun name =>
  if name = "modern".toList ∨ name = "classic".toList then some [] else none

/-- `populateTemplate`'s template loading: a name that resolves to no stored
template document makes the whole call fail with a template-not-found error. -/
def populateTemplateChecked (templates : Str → Option Str) (templateName : Str)
    (cvData : CVData) (options : RenderOptions) : Except Str Str :=
  match templates templateName with
  | none => Except.error ("Failed to populate template: Template not found: ".toList
      ++ templateName)
  | some tmpl => Except.ok (populateTemplate tmpl cvData options)

/-- The ways a render job can end after the LaTeX source was written. -/
inductive RenderPath where
  | populateFailed
  | compileTimeout
  | compileFailed
  | pdfEmpty
  | pdfOversized
  | ok
deriving DecidableEq, Repr

/-- The five extensions `cleanupTempFiles` removes. -/
def tempExts : List String := [".tex", ".aux", ".log", ".out", ".pdf"]

/-- `cleanupTempFiles`: unlink the five `filename`-tagged names from the
temporary directory, ignoring files that are not there. -/
def cleanupTempFiles (filename : String) (temp : List String) : List String :=
  temp.filter (fun f => !(tempExts.any (fun ext => f == filename ++ ext)))

/-- The temporary-directory contents after `generatePDF`: when template
population fails nothing was written yet; on every other path the `.tex`
source is written and the compiler creates its files, and both the success
path and the catch-all error path end with `cleanupTempFiles`. -/
def generatePDFTempFiles (filename : String) (path : RenderPath)
    (compilerCreated : List String) (temp0 : List String) : List String :=
  match path with
  | .populateFailed => cleanupTempFiles filename temp0
  | _ => cleanupTempFiles filename
      ((temp0 ++ [filename ++ ".tex"]) ++ compilerCreated)

end LatexService

namespace ContentService

/-- The three capped sections of the tailored CV assembled by
`createTailoredSections`: selected experience, tailored skills, selected
projects. -/
def tailoredCVSections (workExperience : List Exp) (userSkills : List Str)
    (projects : List Project) (keywords : List KeywordService.JobKw)
    (orac : Str → Option Str) (claudeSkills : Option (List Str)) :
    List OutExp × List Str × List Project :=
  (selectAndEnhanceExperience workExperience keywords orac,
   generateTailoredSkills userSkills claudeSkills keywords,
   selectRelevantProjects projects keywords)

end ContentService

/-- Concrete keywords for exercising C7. -/
def c7kws : List KeywordService.JobKw :=
  [KeywordService.JobKw.str "react".toList]

/-- A concrete experience entry with a keyword in its role title. -/
def c7e0 : ContentService.Exp :=
  ⟨"A".toList, "react dev".toList, "2020".toList, "2021".toList, []⟩

/-- A concrete experience entry matching no keyword. -/
def c7e2 : ContentService.Exp :=
  ⟨"C".toList, "x".toList, [], [], []⟩

/-- Six concrete experience entries for exercising C7 (scenario B: six
entries, four kept). -/
def c7exps : List ContentService.Exp :=
  [c7e0,
   ⟨"B".toList, "cook".toList, [], [], ["react react".toList]⟩,
   c7e2,
   ⟨"D".toList, "react react".toList, [], [], []⟩,
   ⟨"E".toList, [], [], [], []⟩,
   ⟨"F".toList, "react".toList, [], [], []⟩]

/-- A concrete experience entry with six bullets for exercising C8. -/
def c8exp : ContentService.Exp :=
  ⟨"A".toList, "react dev".toList, "2020".toList, [],
   ["b1".toList, "b2".toList, "b3".toList, "b4".toList, "b5".toList,
    "b6".toList]⟩

/-- The tailored entry produced for `c8exp` when every rewrite call fails. -/
def c8out : ContentService.OutExp :=
  ⟨"A".toList, "react dev".toList, "2020 - Present".toList,
   ["b1".toList, "b2".toList, "b3".toList, "b4".toList], 2⟩

/-- Sixteen user skills for exercising the 15-skill cap of C8. -/
def c8skills : List Str :=
  ["s01".toList, "s02".toList, "s03".toList, "s04".toList, "s05".toList,
   "s06".toList, "s07".toList, "s08".toList, "s09".toList, "s10".toList,
   "s11".toList, "s12".toList, "s13".toList, "s14".toList, "s15".toList,
   "s16".toList]

/-- Five projects for exercising the 3-project cap of C8. -/
def c8projects : List ContentService.Project :=
  ["p1", "p2", "p3", "p4", "p5"].map
    (fun n => ⟨n.toList, [], [], [], [], []⟩)

/-- A concrete user profile — a first name and two work-experience entries —
for exercising C4. -/
def c4profile : ClaudeService.UserProfile :=
  ⟨some "Jane Doe".toList,
   [⟨"X".toList, "Engineer".toList, "2020".toList, "2022".toList, []⟩,
    ⟨"Y".toList, "Analyst".toList, "2018".toList, "2020".toList, []⟩],
   ["JavaScript".toList]⟩

/-- Concrete job keywords for exercising C4. -/
def c4keywords : List KeywordService.JobKw :=
  [KeywordService.JobKw.str "react".toList,
   KeywordService.JobKw.str "node".toList,
   KeywordService.JobKw.str "aws".toList,
   KeywordService.JobKw.str "docker".toList]

/-- An API environment that always answers 503 (server error). -/
def c5server : ℕ → ClaudeService.ApiResult :=
  fun _ => ClaudeService.ApiResult.failure (some 503)

/-- An API environment that always answers 404 (client error). -/
def c5client : ℕ → ClaudeService.ApiResult :=
  fun _ => ClaudeService.ApiResult.failure (some 404)

/-- Render options with every field missing (falsy), taking all defaults. -/
def defaultOpts : LatexService.RenderOptions := ⟨[], [], []⟩

/-- A CV whose name field is the two-character string `` $` `` — a value a
user can type — and whose other fields are all missing or empty. -/
def c2cv : LatexService.CVData :=
  ⟨some "$`".toList, none, none, none, none, none, [], [], [], [], []⟩

/-- A CV with every field missing or empty. -/
def emptyCV : LatexService.CVData :=
  ⟨none, none, none, none, none, none, [], [], [], [], []⟩

/-- A CV with a single work-experience entry, for exercising the
format-then-escape pipeline on the EXPERIENCE placeholder. -/
def c10cv : LatexService.CVData :=
  ⟨some "Jane Doe".toList, none, none, none, none, none, [], [],
   [⟨"2020 - 2022".toList, "Developer".toList, "Acme".toList,
     ["Shipped the product".toList]⟩], [], []⟩

/-- A CV whose single experience bullet contains `` $` `` — user text that
survives into the formatted EXPERIENCE value and, after escaping, becomes an
active replacement pattern during substitution. -/
def c10bad : LatexService.CVData :=
  ⟨none, none, none, none, none, none, [], [],
   [⟨"2020 - 2022".toList, "Dev".toList, "Acme".toList, ["a$`b".toList]⟩],
   [], []⟩

/-- C1.  For every candidate keyword set and every job keyword list, the
relevance scorer's `matchScore` equals
`round(100 × Σ(weight of job keywords case-insensitively matched by some
candidate keyword) / Σ(weight of all job keywords))`, and it is 0 when the
job keyword list is empty. -/
theorem C1_match_score_formula (u : List KeywordService.UserKw)
    (j : List KeywordService.JobKw) :
    KeywordService.calculateMatchScore (KeywordService.findKeywordMatches u j) j
      = KeywordService.specMatchScore u j := by
  unfold KeywordService.calculateMatchScore KeywordService.specMatchScore
  by_cases hj : j = []
  · simp [hj]
  · rw [if_neg hj, if_neg hj, KeywordService.matched_sum_eq]
    simp only []
    congr 1
    rw [div_mul_eq_mul_div, mul_comm]

namespace ContentService

lemma foldl_add_count (p : Str → Bool) (k : ℕ) :
    ∀ (l : List Str) (init : ℕ),
      l.foldl (fun score w => if p w then score + k else score) init
        = init + k * l.countP p := by
  intro l
  induction l with
  | nil => intro init; simp
  | cons a t ih =>
    intro init
    rw [List.foldl_cons, List.countP_cons]
    by_cases hp : p a
    · simp only [hp, if_true, ih]
      ring
    · simp only [hp, if_false, ih, Bool.false_eq_true]
      ring

lemma bullets_foldl (keywordSet : List Str) (bullets : List Str) :
    ∀ init : ℕ,
      bullets.foldl
        (fun score bullet =>
          (wordRuns (lowerStr bullet)).foldl
            (fun s w => if keywordSet.contains w then s + 1 else s) score)
        init
      = init + (bullets.map (fun b =>
          (wordRuns (lowerStr b)).countP (fun w => keywordSet.contains w))).sum := by
  induction bullets with
  | nil => intro init; simp
  | cons b t ih =>
    intro init
    rw [List.foldl_cons, foldl_add_count (fun w => keywordSet.contains w), ih,
      List.map_cons, List.sum_cons]
    ring

lemma exp_rel_spec (e : Exp) (kws : List KeywordService.JobKw) :
    calculateExperienceRelevance e kws = specExperienceRelevance e kws := by
  unfold calculateExperienceRelevance specExperienceRelevance
  rw [bullets_foldl, foldl_add_count]
  ring

instance expRel_total (kws : List KeywordService.JobKw) :
    IsTotal (ℕ × Exp) (expRel kws) := by
  constructor
  intro a b
  unfold expRel
  omega

instance expRel_trans (kws : List KeywordService.JobKw) :
    IsTrans (ℕ × Exp) (expRel kws) := by
  constructor
  intro a b c hab hbc
  unfold expRel at *
  omega

end ContentService

/-- C7.  Experience tailoring scores each entry as 2 points per role-title
word in the keyword set plus 1 point per bullet-text word occurrence in the
keyword set, keeps the `min 4 n` highest-scoring entries, and breaks score
ties by the entries' original order: every selected position beats every
unselected position either strictly on score or, on equal scores, by coming
earlier. -/
theorem C7_experience_selection (exps : List ContentService.Exp)
    (kws : List KeywordService.JobKw) (orac : Str → Option Str) :
    (∀ e : ContentService.Exp,
        ContentService.calculateExperienceRelevance e kws
          = ContentService.specExperienceRelevance e kws)
    ∧ (ContentService.selectAndEnhanceExperience exps kws orac).length
        = min 4 exps.length
    ∧ (∀ i j ei ej, i ∈ ContentService.selectedIndices exps kws
        → j ∉ ContentService.selectedIndices exps kws
        → exps[i]? = some ei → exps[j]? = some ej
        → ContentService.calculateExperienceRelevance ej kws
              < ContentService.calculateExperienceRelevance ei kws
          ∨ (ContentService.calculateExperienceRelevance ei kws
                = ContentService.calculateExperienceRelevance ej kws ∧ i < j)) := by
  refine ⟨fun e => ContentService.exp_rel_spec e kws, ?_, ?_⟩
  · unfold ContentService.selectAndEnhanceExperience ContentService.sortedScored
    rw [List.length_map, List.length_take,
      (List.perm_insertionSort _ _).length_eq, List.enum_length]
  · intro i j ei ej hi hj hgi hgj
    have hperm : List.Perm (ContentService.sortedScored exps kws) exps.enum :=
      List.perm_insertionSort _ _
    have hsorted : List.Sorted (ContentService.expRel kws)
        (ContentService.sortedScored exps kws) :=
      List.sorted_insertionSort _ _
    rcases List.mem_map.mp hi with ⟨p, hpmem, hp1⟩
    have hpenum : p ∈ exps.enum :=
      hperm.mem_iff.mp (List.mem_of_mem_take hpmem)
    have hpget : exps[p.1]? = some p.2 := List.mem_enum_iff_getElem?.mp hpenum
    have hp2 : p.2 = ei := by
      rw [hp1] at hpget
      rw [hpget] at hgi
      exact Option.some.inj hgi
    have hjenum : (j, ej) ∈ exps.enum := List.mem_enum_iff_getElem?.mpr hgj
    have hjsorted : (j, ej) ∈ ContentService.sortedScored exps kws :=
      hperm.mem_iff.mpr hjenum
    have hjfull : (j, ej) ∈ (ContentService.sortedScored exps kws).take 4
        ++ (ContentService.sortedScored exps kws).drop 4 := by
      rw [List.take_append_drop]
      exact hjsorted
    have hjdrop : (j, ej) ∈ (ContentService.sortedScored exps kws).drop 4 := by
      rcases List.mem_append.mp hjfull with htk | hdp
      · exact absurd (List.mem_map.mpr ⟨(j, ej), htk, rfl⟩) hj
      · exact hdp
    have hrel := hsorted.rel_of_mem_take_of_mem_drop hpmem hjdrop
    unfold ContentService.expRel at hrel
    rcases hrel with hlt | ⟨heq, hle⟩
    · left
      rw [← hp2]
      exact hlt
    · right
      have hne : i ≠ j := by
        intro hij
        exact hj (hij ▸ hi)
      constructor
      · rw [← hp2]
        exact heq
      · rw [hp1] at hle
        omega

/-- Witness for C7: among six concrete entries, position 0 is kept, position 2
is not, and the selection ordering holds between them. -/
theorem C7_experience_selection_witness :
    (0 ∈ ContentService.selectedIndices c7exps c7kws)
    ∧ (2 ∉ ContentService.selectedIndices c7exps c7kws)
    ∧ c7exps[0]? = some c7e0
    ∧ c7exps[2]? = some c7e2
    ∧ (ContentService.calculateExperienceRelevance c7e2 c7kws
          < ContentService.calculateExperienceRelevance c7e0 c7kws
      ∨ (ContentService.calculateExperienceRelevance c7e0 c7kws
            = ContentService.calculateExperienceRelevance c7e2 c7kws ∧ 0 < 2)) :=
  ⟨by decide, by decide, by decide, by decide,
   (C7_experience_selection c7exps c7kws (fun _ => none)).2.2 0 2 c7e0 c7e2
     (by decide) (by decide) (by decide) (by decide)⟩

/-- C8.  For every input, the tailored CV's sections respect the selection
caps — at most 4 experience entries, at most 4 bullets per entry, at most 15
skills, at most 3 projects — whatever the rewrite and skills oracles do. -/
theorem C8_selection_caps (workExperience : List ContentService.Exp)
    (userSkills : List Str) (projects : List ContentService.Project)
    (keywords : List KeywordService.JobKw) (orac : Str → Option Str)
    (claudeSkills : Option (List Str)) :
    (ContentService.selectAndEnhanceExperience workExperience keywords orac).length ≤ 4
    ∧ (∀ e ∈ ContentService.selectAndEnhanceExperience workExperience keywords orac,
        e.bullets.length ≤ 4)
    ∧ (ContentService.generateTailoredSkills userSkills claudeSkills keywords).length ≤ 15
    ∧ (ContentService.selectRelevantProjects projects keywords).length ≤ 3
    ∧ ContentService.tailoredCVSections workExperience userSkills projects
          keywords orac claudeSkills
        = (ContentService.selectAndEnhanceExperience workExperience keywords orac,
           ContentService.generateTailoredSkills userSkills claudeSkills keywords,
           ContentService.selectRelevantProjects projects keywords) := by
  refine ⟨?_, ?_, ?_, ?_, rfl⟩
  · unfold ContentService.selectAndEnhanceExperience
    rw [List.length_map]
    exact List.length_take_le _ _
  · intro e he
    unfold ContentService.selectAndEnhanceExperience at he
    rcases List.mem_map.mp he with ⟨p, _, rfl⟩
    show (ContentService.enhanceExperienceBullets p.2 orac).length ≤ 4
    unfold ContentService.enhanceExperienceBullets
    rw [List.length_map]
    exact List.length_take_le _ _
  · rcases claudeSkills with _ | cs
    · unfold ContentService.generateTailoredSkills
      exact le_trans (List.length_take_le _ _) (by norm_num)
    · unfold ContentService.generateTailoredSkills
      exact List.length_take_le _ _
  · unfold ContentService.selectRelevantProjects
    rw [List.length_map]
    exact List.length_take_le _ _

/-- Witness for C8: concrete oversized inputs — six bullets, sixteen skills,
five projects — stay within the caps, checked on the concrete tailored entry. -/
theorem C8_selection_caps_witness :
    (ContentService.selectAndEnhanceExperience [c8exp] c7kws (fun _ => none)).length ≤ 4
    ∧ c8out ∈ ContentService.selectAndEnhanceExperience [c8exp] c7kws (fun _ => none)
    ∧ c8out.bullets.length ≤ 4
    ∧ (ContentService.generateTailoredSkills c8skills (some ["X".toList]) c7kws).length ≤ 15
    ∧ (ContentService.selectRelevantProjects c8projects c7kws).length ≤ 3 :=
  ⟨(C8_selection_caps [c8exp] c8skills c8projects c7kws (fun _ => none)
      (some ["X".toList])).1,
   by decide,
   (C8_selection_caps [c8exp] c8skills c8projects c7kws (fun _ => none)
      (some ["X".toList])).2.1 c8out (by decide),
   (C8_selection_caps [c8exp] c8skills c8projects c7kws (fun _ => none)
      (some ["X".toList])).2.2.1,
   (C8_selection_caps [c8exp] c8skills c8projects c7kws (fun _ => none)
      (some ["X".toList])).2.2.2.1⟩

set_option maxRecDepth 20000 in
/-- C4.  When the generative-text dependency is unreachable during summary
generation, the summary handed back by the tailoring pipeline is
`ClaudeService.generateSummary`'s own generic keyword-only fallback — not the
documented `ContentService.generateFallbackSummary` built from the profile's
first name, experience count and top-3 keywords, which is unreachable on this
path. -/
theorem C4_summary_fallback_bug :
    ContentService.generateTailoredSummary c4profile c4keywords none
      = ("Experienced professional with expertise in react, node, aws. "
          ++ "Proven track record of delivering results in dynamic environments. "
          ++ "Seeking to leverage skills and experience in a challenging new role.").toList
    ∧ ContentService.generateTailoredSummary c4profile c4keywords none
        ≠ ContentService.generateFallbackSummary c4profile c4keywords
    ∧ ContentService.generateFallbackSummary c4profile c4keywords
      = ("Experienced Jane with 2+ years of professional experience. "
          ++ "Skilled in react, node, aws with a proven track record of delivering results. "
          ++ "Seeking to leverage expertise in a challenging new role.").toList := by
  refine ⟨by decide, by decide, by decide⟩

namespace ClaudeService

/-- One step of the retry loop either stops with a single attempt or, below
the attempt cap, recurses after sleeping the exponential backoff delay. -/
lemma go_succ_cases (responses : ℕ → ApiResult) (attempt fuel : ℕ) :
    (∃ o, makeRequestGo responses attempt (fuel + 1) = (o, 1, []))
    ∨ (attempt ≠ maxRetries ∧
        makeRequestGo responses attempt (fuel + 1)
          = ((makeRequestGo responses (attempt + 1) fuel).1,
             (makeRequestGo responses (attempt + 1) fuel).2.1 + 1,
             retryDelay * 2 ^ (attempt - 1)
               :: (makeRequestGo responses (attempt + 1) fuel).2.2)) := by
  rcases hr : responses attempt with c | st
  · by_cases hc : c = []
    · by_cases ha : attempt = maxRetries
      · exact Or.inl ⟨.exhausted, by subst ha; simp [makeRequestGo, hr, hc]⟩
      · exact Or.inr ⟨ha, by simp [makeRequestGo, hr, hc, ha]⟩
    · exact Or.inl ⟨.ok c, by simp [makeRequestGo, hr, hc]⟩
  · rcases st with _ | s
    · by_cases ha : attempt = maxRetries
      · exact Or.inl ⟨.exhausted, by subst ha; simp [makeRequestGo, hr]⟩
      · exact Or.inr ⟨ha, by simp [makeRequestGo, hr, ha]⟩
    · by_cases hcl : 400 ≤ s ∧ s < 500 ∧ s ≠ 429
      · exact Or.inl ⟨.clientError s, by simp [makeRequestGo, hr, hcl]⟩
      · by_cases ha : attempt = maxRetries
        · exact Or.inl ⟨.exhausted, by subst ha; simp [makeRequestGo, hr, hcl]⟩
        · exact Or.inr ⟨ha, by simp [makeRequestGo, hr, hcl, ha]⟩

/-- Attempt counts and delay lists of the retry loop: at most `fuel` attempts
are made, at least one when there is fuel, and the delays slept are exactly
`retryDelay·2^(attempt-1), retryDelay·2^attempt, ...`, one per retry. -/
lemma go_shape (responses : ℕ → ApiResult) :
    ∀ (fuel attempt : ℕ), attempt + fuel = 4 → 1 ≤ attempt →
      (makeRequestGo responses attempt fuel).2.1 ≤ fuel
      ∧ (1 ≤ fuel → 1 ≤ (makeRequestGo responses attempt fuel).2.1)
      ∧ (makeRequestGo responses attempt fuel).2.2
          = (List.range ((makeRequestGo responses attempt fuel).2.1 - 1)).map
              (fun k => retryDelay * 2 ^ (attempt - 1 + k)) := by
  intro fuel
  induction fuel with
  | zero =>
    intro attempt hsum hatt
    refine ⟨le_refl _, fun h => absurd h (by simp [makeRequestGo]), ?_⟩
    simp [makeRequestGo]
  | succ fuel ih =>
    intro attempt hsum hatt
    rcases go_succ_cases responses attempt fuel with ⟨o, heq⟩ | ⟨hne, heq⟩
    · rw [heq]
      refine ⟨?_, fun _ => le_refl _, by simp⟩
      show (1 : ℕ) ≤ fuel + 1
      omega
    · have hne3 : attempt ≠ 3 := by simpa [maxRetries] using hne
      have hfe : 1 ≤ fuel := by omega
      obtain ⟨ih1, ih2, ih3⟩ := ih (attempt + 1) (by omega) (by omega)
      rw [heq]
      refine ⟨?_, fun _ => ?_, ?_⟩
      · show (makeRequestGo responses (attempt + 1) fuel).2.1 + 1 ≤ fuel + 1
        omega
      · show (1 : ℕ) ≤ (makeRequestGo responses (attempt + 1) fuel).2.1 + 1
        omega
      · show retryDelay * 2 ^ (attempt - 1)
            :: (makeRequestGo responses (attempt + 1) fuel).2.2
          = (List.range
              ((makeRequestGo responses (attempt + 1) fuel).2.1 + 1 - 1)).map
              (fun k => retryDelay * 2 ^ (attempt - 1 + k))
        obtain ⟨m, hm⟩ : ∃ m, (makeRequestGo responses (attempt + 1) fuel).2.1
            = m + 1 :=
          ⟨(makeRequestGo responses (attempt + 1) fuel).2.1 - 1,
           by have := ih2 hfe; omega⟩
        rw [hm] at ih3
        simp only [Nat.add_sub_cancel] at ih3
        rw [ih3, hm, Nat.add_sub_cancel, List.range_succ_eq_map,
          List.map_cons, List.map_map]
        congr 1
        apply List.map_congr_left
        intro k hk
        show retryDelay * 2 ^ (attempt + k)
          = retryDelay * 2 ^ (attempt - 1 + Nat.succ k)
        have harith : attempt + k = attempt - 1 + Nat.succ k := by omega
        rw [harith]

/-- A retryable failure (rate limit or server error) below the attempt cap
recurses with the backoff delay prepended. -/
lemma go_retry_step (responses : ℕ → ApiResult) (attempt fuel s : ℕ)
    (hr : responses attempt = .failure (some s)) (hs : s = 429 ∨ 500 ≤ s)
    (hne : attempt ≠ maxRetries) :
    makeRequestGo responses attempt (fuel + 1)
      = ((makeRequestGo responses (attempt + 1) fuel).1,
         (makeRequestGo responses (attempt + 1) fuel).2.1 + 1,
         retryDelay * 2 ^ (attempt - 1)
           :: (makeRequestGo responses (attempt + 1) fuel).2.2) := by
  have nc : ¬(400 ≤ s ∧ s < 500 ∧ s ≠ 429) := by
    rcases hs with rfl | h
    · rintro ⟨_, _, hh⟩; exact hh rfl
    · rintro ⟨_, hlt, _⟩; omega
  simp [makeRequestGo, hr, nc, hne]

/-- A retryable failure on the last allowed attempt throws: the loop ends
exhausted with no further delay. -/
lemma go_last_step (responses : ℕ → ApiResult) (fuel s : ℕ)
    (hr : responses maxRetries = .failure (some s)) (hs : s = 429 ∨ 500 ≤ s) :
    makeRequestGo responses maxRetries (fuel + 1)
      = (.exhausted, 1, []) := by
  have nc : ¬(400 ≤ s ∧ s < 500 ∧ s ≠ 429) := by
    rcases hs with rfl | h
    · rintro ⟨_, _, hh⟩; exact hh rfl
    · rintro ⟨_, hlt, _⟩; omega
  simp [makeRequestGo, hr, nc]

end ClaudeService

/-- C5.  The generative-text call is attempted at most `maxRetries = 3`
times; the delays slept between consecutive attempts are exactly
`retryDelay·2^0, retryDelay·2^1, ...` — exponentially increasing, one per
retry; a client error (4xx other than 429) on the first attempt fails the
call immediately, with one attempt and no retry; and a persistent rate-limit
or server error exhausts exactly 3 attempts with delays 1000ms and 2000ms. -/
theorem C5_retry_policy (responses : ℕ → ClaudeService.ApiResult) :
    (ClaudeService.makeRequest responses).2.1 ≤ 3
    ∧ (ClaudeService.makeRequest responses).2.2
        = (List.range ((ClaudeService.makeRequest responses).2.1 - 1)).map
            (fun k => ClaudeService.retryDelay * 2 ^ k)
    ∧ (∀ s, responses 1 = ClaudeService.ApiResult.failure (some s) → 400 ≤ s
        → s < 500 → s ≠ 429
        → ClaudeService.makeRequest responses
            = (ClaudeService.ReqOutcome.clientError s, 1, []))
    ∧ ((∀ a, 1 ≤ a → a ≤ 3 → ∃ s, responses a
            = ClaudeService.ApiResult.failure (some s) ∧ (s = 429 ∨ 500 ≤ s))
        → ClaudeService.makeRequest responses
            = (ClaudeService.ReqOutcome.exhausted, 3, [1000, 2000])) := by
  obtain ⟨h1, _, h3⟩ := ClaudeService.go_shape responses 3 1 (by norm_num)
    (by norm_num)
  refine ⟨h1, ?_, ?_, ?_⟩
  · show (ClaudeService.makeRequestGo responses 1 3).2.2
        = (List.range ((ClaudeService.makeRequestGo responses 1 3).2.1 - 1)).map
            (fun k => ClaudeService.retryDelay * 2 ^ k)
    rw [h3]
    simp
  · intro s hr h4 h5 h429
    have hand : 400 ≤ s ∧ s < 500 ∧ s ≠ 429 := ⟨h4, h5, h429⟩
    show ClaudeService.makeRequestGo responses 1 (2 + 1) = _
    simp [ClaudeService.makeRequestGo, hr, hand]
  · intro h
    obtain ⟨s1, e1, d1⟩ := h 1 (by norm_num) (by norm_num)
    obtain ⟨s2, e2, d2⟩ := h 2 (by norm_num) (by norm_num)
    obtain ⟨s3, e3, d3⟩ := h 3 (by norm_num) (by norm_num)
    show ClaudeService.makeRequestGo responses 1 (2 + 1) = _
    rw [ClaudeService.go_retry_step responses 1 2 s1 e1 d1
      (by simp [ClaudeService.maxRetries])]
    rw [show ClaudeService.makeRequestGo responses 2 2
        = ClaudeService.makeRequestGo responses 2 (1 + 1) from rfl]
    rw [ClaudeService.go_retry_step responses 2 1 s2 e2 d2
      (by simp [ClaudeService.maxRetries])]
    rw [show ClaudeService.makeRequestGo responses 3 1
        = ClaudeService.makeRequestGo responses ClaudeService.maxRetries (0 + 1)
        from rfl]
    rw [ClaudeService.go_last_step responses 0 s3 (by simpa [ClaudeService.maxRetries] using e3) d3]
    norm_num [ClaudeService.retryDelay]

/-- Witness for C5: a permanent 503 environment exhausts exactly 3 attempts
with backoff delays 1000 and 2000; a permanent 404 environment fails after a
single attempt with no delay. -/
theorem C5_retry_policy_witness :
    ClaudeService.makeRequest c5server
      = (ClaudeService.ReqOutcome.exhausted, 3, [1000, 2000])
    ∧ ClaudeService.makeRequest c5client
      = (ClaudeService.ReqOutcome.clientError 404, 1, []) :=
  ⟨(C5_retry_policy c5server).2.2.2
      (fun a _ _ => ⟨503, rfl, Or.inr (by norm_num)⟩),
   (C5_retry_policy c5client).2.2.1 404 rfl (by norm_num) (by norm_num)
      (by norm_num)⟩

/-- C9.  After a render job ends — on the success path or on any failure path
(template error, compiler error, timeout, empty or oversized output) — none
of the job's tagged temporary files (`.tex`, `.aux`, `.log`, `.out`, `.pdf`)
remains in the temporary directory, and nothing new is left behind: every
surviving file was already there before the job. -/
theorem C9_cleanup_guarantee (filename : String) (path : LatexService.RenderPath)
    (compilerCreated temp0 : List String)
    (hcc : ∀ f ∈ compilerCreated, ∃ ext ∈ LatexService.tempExts,
        f = filename ++ ext) :
    (∀ ext ∈ LatexService.tempExts,
        (filename ++ ext)
          ∉ LatexService.generatePDFTempFiles filename path compilerCreated temp0)
    ∧ (∀ f ∈ LatexService.generatePDFTempFiles filename path compilerCreated temp0,
        f ∈ temp0) := by
  have hdel : ∀ (base : List String) (ext : String), ext ∈ LatexService.tempExts →
      (filename ++ ext) ∉ LatexService.cleanupTempFiles filename base := by
    intro base ext hext hmem
    have hpred := List.of_mem_filter hmem
    have hany : (LatexService.tempExts.any
        fun e => filename ++ ext == filename ++ e) = true :=
      List.any_eq_true.mpr ⟨ext, hext, by simp⟩
    rw [hany] at hpred
    simp at hpred
  have hsub : ∀ (base : List String) (f : String),
      f ∈ LatexService.cleanupTempFiles filename base → f ∈ base :=
    fun base f hf => List.mem_of_mem_filter hf
  constructor
  · intro ext hext
    cases path <;>
      exact hdel _ ext hext
  · intro f hf
    cases path
    case populateFailed => exact hsub _ _ hf
    all_goals
      · have hbase := hsub _ _ hf
        have hpred := List.of_mem_filter hf
        rcases List.mem_append.mp hbase with h0 | hcc1
        · rcases List.mem_append.mp h0 with h0 | htex
          · exact h0
          · exfalso
            rcases List.mem_singleton.mp htex with rfl
            exact hdel _ ".tex" (by simp [LatexService.tempExts]) hf
        · exfalso
          obtain ⟨ext, hext, rfl⟩ := hcc f hcc1
          exact hdel _ ext hext hf

/-- Witness for C9: a concrete successful job whose compiler produced aux,
log and pdf files leaves no tagged file behind and leaves the unrelated
pre-existing file untouched. -/
theorem C9_cleanup_guarantee_witness :
    (∀ f ∈ ["cv-1.aux", "cv-1.log", "cv-1.pdf"],
        ∃ ext ∈ LatexService.tempExts, f = "cv-1" ++ ext)
    ∧ ("cv-1" ++ ".tex")
        ∉ LatexService.generatePDFTempFiles "cv-1" LatexService.RenderPath.ok
            ["cv-1.aux", "cv-1.log", "cv-1.pdf"] ["other.txt"]
    ∧ (∀ f ∈ LatexService.generatePDFTempFiles "cv-1" LatexService.RenderPath.ok
          ["cv-1.aux", "cv-1.log", "cv-1.pdf"] ["other.txt"],
        f ∈ ["other.txt"]) :=
  ⟨by decide,
   (C9_cleanup_guarantee "cv-1" LatexService.RenderPath.ok
      ["cv-1.aux", "cv-1.log", "cv-1.pdf"] ["other.txt"] (by decide)).1
      ".tex" (by decide),
   (C9_cleanup_guarantee "cv-1" LatexService.RenderPath.ok
      ["cv-1.aux", "cv-1.log", "cv-1.pdf"] ["other.txt"] (by decide)).2⟩

namespace LatexService

lemma escapeLatex_append (a b : Str) :
    escapeLatex (a ++ b) = escapeLatex a ++ escapeLatex b := by
  simp [escapeLatex, replaceChar, List.flatMap_append]

lemma escapeLatex_singleton (c : Char) : escapeLatex [c] = escChar c := by
  by_cases h1 : c = '\\'
  · subst h1; decide
  by_cases h2 : c = '{'
  · subst h2; decide
  by_cases h3 : c = '}'
  · subst h3; decide
  by_cases h4 : c = '$'
  · subst h4; decide
  by_cases h5 : c = '&'
  · subst h5; decide
  by_cases h6 : c = '%'
  · subst h6; decide
  by_cases h7 : c = '#'
  · subst h7; decide
  by_cases h8 : c = '^'
  · subst h8; decide
  by_cases h9 : c = '_'
  · subst h9; decide
  by_cases h10 : c = '~'
  · subst h10; decide
  simp [escapeLatex, replaceChar, escChar, h1, h2, h3, h4, h5, h6, h7, h8,
    h9, h10]

lemma escapeLatex_cons (c : Char) (t : Str) :
    escapeLatex (c :: t) = escChar c ++ escapeLatex t := by
  rw [show c :: t = [c] ++ t from rfl, escapeLatex_append,
    escapeLatex_singleton]

end LatexService

namespace LatexService

lemma bsEscaped_cons_bs (d : Char) (t : Str) :
    bsEscaped ('\\' :: d :: t) = (allowedAfterBS d && bsEscaped (d :: t)) := by
  conv_lhs => rw [bsEscaped]
  simp

lemma bsEscaped_cons_other (c : Char) (t : Str) (h : ¬ c = '\\') :
    bsEscaped (c :: t) = bsEscaped t := by
  conv_lhs => rw [bsEscaped.eq_def]
  simp [h]

lemma bsEscaped_append (a b : Str) (ha : bsEscaped a = true)
    (hb : bsEscaped b = true) : bsEscaped (a ++ b) = true := by
  induction a with
  | nil => simpa using hb
  | cons c t ih =>
    by_cases hc : c = '\\'
    · subst hc
      cases t with
      | nil => simp [bsEscaped] at ha
      | cons d t' =>
        rw [show ('\\' :: d :: t') ++ b = '\\' :: d :: (t' ++ b) from rfl]
        rw [bsEscaped_cons_bs] at ha ⊢
        rw [Bool.and_eq_true] at ha ⊢
        refine ⟨ha.1, ?_⟩
        show bsEscaped ((d :: t') ++ b) = true
        exact ih ha.2
    · rw [List.cons_append, bsEscaped_cons_other _ _ hc]
      rw [bsEscaped_cons_other _ _ hc] at ha
      exact ih ha

lemma bsEscaped_escChar (c : Char) : bsEscaped (escChar c) = true := by
  by_cases h1 : c = '\\'
  · subst h1; decide
  by_cases h2 : c = '{'
  · subst h2; decide
  by_cases h3 : c = '}'
  · subst h3; decide
  by_cases h4 : c = '$'
  · subst h4; decide
  by_cases h5 : c = '&'
  · subst h5; decide
  by_cases h6 : c = '%'
  · subst h6; decide
  by_cases h7 : c = '#'
  · subst h7; decide
  by_cases h8 : c = '^'
  · subst h8; decide
  by_cases h9 : c = '_'
  · subst h9; decide
  by_cases h10 : c = '~'
  · subst h10; decide
  simp [escChar, h1, h2, h3, h4, h5, h6, h7, h8, h9, h10, bsEscaped]

/-- Every backslash of any `escapeLatex` output begins one of the escaper's
own escape sequences: no raw backslash of the input survives escaping. -/
lemma bs_escape (v : Str) : bsEscaped (escapeLatex v) = true := by
  induction v with
  | nil => decide
  | cons c t ih =>
    rw [escapeLatex_cons]
    exact bsEscaped_append _ _ (bsEscaped_escChar c) ih

lemma ctlEscapedFrom_append (a b : Str) :
    ∀ prev, ctlEscapedFrom prev a = true → (∀ p, ctlEscapedFrom p b = true) →
      ctlEscapedFrom prev (a ++ b) = true := by
  induction a with
  | nil => intro prev _ hb; exact hb prev
  | cons c t ih =>
    intro prev ha hb
    rw [List.cons_append]
    simp only [ctlEscapedFrom, Bool.and_eq_true] at ha ⊢
    exact ⟨ha.1, ih _ ha.2 hb⟩

lemma ctlEscapedFrom_escChar (c : Char) (prev : Option Char) :
    ctlEscapedFrom prev (escChar c) = true := by
  by_cases h1 : c = '\\'
  · subst h1
    simp [escChar, ctlEscapedFrom, ctlChar]
  by_cases h2 : c = '{'
  · subst h2
    simp [escChar, ctlEscapedFrom, ctlChar]
  by_cases h3 : c = '}'
  · subst h3
    simp [escChar, ctlEscapedFrom, ctlChar]
  by_cases h4 : c = '$'
  · subst h4
    simp [escChar, ctlEscapedFrom, ctlChar]
  by_cases h5 : c = '&'
  · subst h5
    simp [escChar, ctlEscapedFrom, ctlChar]
  by_cases h6 : c = '%'
  · subst h6
    simp [escChar, ctlEscapedFrom, ctlChar]
  by_cases h7 : c = '#'
  · subst h7
    simp [escChar, ctlEscapedFrom, ctlChar]
  by_cases h8 : c = '^'
  · subst h8
    simp [escChar, ctlEscapedFrom, ctlChar]
  by_cases h9 : c = '_'
  · subst h9
    simp [escChar, ctlEscapedFrom, ctlChar]
  by_cases h10 : c = '~'
  · subst h10
    simp [escChar, ctlEscapedFrom, ctlChar]
  have hctl : ctlChar c = false := by
    simp [ctlChar, h4, h5, h6]
  simp [escChar, h1, h2, h3, h4, h5, h6, h7, h8, h9, h10, ctlEscapedFrom,
    hctl]

/-- Every `&`, `%`, `$` of any `escapeLatex` output is immediately preceded
by a backslash, whatever precedes the output. -/
lemma ctl_escape (v : Str) : ∀ prev, ctlEscapedFrom prev (escapeLatex v) = true := by
  induction v with
  | nil => intro prev; rfl
  | cons c t ih =>
    intro prev
    rw [escapeLatex_cons]
    exact ctlEscapedFrom_append _ _ prev (ctlEscapedFrom_escChar c prev) ih

end LatexService

namespace LatexService

/-- The pending-`$` state after scanning a string, starting from `p`. -/
def lastPending (p : Bool) : Str → Bool
  | [] => p
  | c :: t => lastPending (c == '$') t

lemma afGo_append (a r : Str) :
    ∀ p, afGo p (a ++ r) = (afGo p a && afGo (lastPending p a) r) := by
  induction a with
  | nil => intro p; simp [afGo, lastPending]
  | cons c t ih =>
    intro p
    rw [List.cons_append]
    simp only [afGo, lastPending, ih (c == '$')]
    rw [Bool.and_assoc]

lemma afGo_escChar (p : Bool) (c : Char)
    (hp : c = '`' ∨ c = '\'' → p = false) : afGo p (escChar c) = true := by
  by_cases h1 : c = '\\'
  · subst h1; cases p <;> decide
  by_cases h2 : c = '{'
  · subst h2; cases p <;> decide
  by_cases h3 : c = '}'
  · subst h3; cases p <;> decide
  by_cases h4 : c = '$'
  · subst h4; cases p <;> decide
  by_cases h5 : c = '&'
  · subst h5; cases p <;> decide
  by_cases h6 : c = '%'
  · subst h6; cases p <;> decide
  by_cases h7 : c = '#'
  · subst h7; cases p <;> decide
  by_cases h8 : c = '^'
  · subst h8; cases p <;> decide
  by_cases h9 : c = '_'
  · subst h9; cases p <;> decide
  by_cases h10 : c = '~'
  · subst h10; cases p <;> decide
  have hchar : escChar c = [c] := by
    simp [escChar, h1, h2, h3, h4, h5, h6, h7, h8, h9, h10]
  rw [hchar]
  by_cases hbq : c = '`' ∨ c = '\''
  · rw [hp hbq]
    simp [afGo]
  · have hbad : badAfterDollar c = false := by
      simp only [badAfterDollar]
      push_neg at hbq
      simp [h4, h5, hbq.1, hbq.2]
    simp [afGo, hbad]

lemma lastPending_escChar (p : Bool) (c : Char) :
    lastPending p (escChar c) = (c == '$') := by
  by_cases h1 : c = '\\'
  · subst h1; rfl
  by_cases h2 : c = '{'
  · subst h2; rfl
  by_cases h3 : c = '}'
  · subst h3; rfl
  by_cases h4 : c = '$'
  · subst h4; rfl
  by_cases h5 : c = '&'
  · subst h5; rfl
  by_cases h6 : c = '%'
  · subst h6; rfl
  by_cases h7 : c = '#'
  · subst h7; rfl
  by_cases h8 : c = '^'
  · subst h8; rfl
  by_cases h9 : c = '_'
  · subst h9; rfl
  by_cases h10 : c = '~'
  · subst h10; rfl
  have hchar : escChar c = [c] := by
    simp [escChar, h1, h2, h3, h4, h5, h6, h7, h8, h9, h10]
  rw [hchar]
  rfl

/-- A source value without `` $` `` or `$'` escapes to a replacement string
without active `$`-patterns. -/
lemma af_escape (v : Str) :
    ∀ p, noDollarTickGo p v = true → afGo p (escapeLatex v) = true := by
  induction v with
  | nil => intro p _; rfl
  | cons c t ih =>
    intro p h
    simp only [noDollarTickGo, Bool.and_eq_true] at h
    rw [escapeLatex_cons, afGo_append, lastPending_escChar]
    rw [Bool.and_eq_true]
    constructor
    · apply afGo_escChar
      intro hbq
      rcases h with ⟨h1, _⟩
      rw [Bool.or_eq_true] at h1
      rcases h1 with hnp | hbad
      · rwa [Bool.not_eq_true'] at hnp
      · exfalso
        rcases hbq with rfl | rfl <;> simp at hbad
    · exact ih _ h.2

end LatexService

namespace LatexService

/-- A replacement string with no active `$`-patterns is substituted
literally by `GetSubstitution`. -/
lemma expand_literal (b m a : Str) :
    ∀ r, activeFree r = true → expandRepl b m a r = r := by
  intro r
  induction r with
  | nil => intro _; rfl
  | cons c t ih =>
    intro h
    simp only [activeFree, afGo, Bool.and_eq_true] at h
    by_cases hc : c = '$'
    · subst hc
      cases t with
      | nil => simp [expandRepl]
      | cons d r' =>
        have h2 := h.2
        have hbt : ('$' == '$') = true := by decide
        rw [hbt] at h2
        simp only [afGo, Bool.and_eq_true, Bool.not_true, Bool.false_or,
          Bool.not_eq_true'] at h2
        have hbad := h2.1
        have hd1 : ¬ d = '$' := by
          intro hd; rw [hd] at hbad; simp [badAfterDollar] at hbad
        have hd2 : ¬ d = '&' := by
          intro hd; rw [hd] at hbad; simp [badAfterDollar] at hbad
        have hd3 : ¬ d = '`' := by
          intro hd; rw [hd] at hbad; simp [badAfterDollar] at hbad
        have hd4 : ¬ d = '\'' := by
          intro hd; rw [hd] at hbad; simp [badAfterDollar] at hbad
        have hred : expandRepl b m a ('$' :: d :: r')
            = '$' :: expandRepl b m a (d :: r') := by
          simp [expandRepl, hd1, hd2, hd3, hd4]
        rw [hred]
        congr 1
        apply ih
        simp only [activeFree, afGo, Bool.and_eq_true]
        exact ⟨by simp, h2.2⟩
    · have hred : expandRepl b m a (c :: t) = c :: expandRepl b m a t := by
        conv_lhs => rw [expandRepl.eq_def]
        simp [hc]
      rw [hred]
      congr 1
      apply ih
      have hdf : (c == '$') = false := by simp [hc]
      have h2 := h.2
      rw [hdf] at h2
      simpa [activeFree] using h2

/-- The scan loop copies a text that contains no `<` at all (so no
placeholder) unchanged. -/
lemma replaceAllGo_no_match (pat repl : Str) (hpat : pat.head? = some '<') :
    ∀ (s : Str) (fuel : ℕ) (consumed : Str), s.length ≤ fuel → '<' ∉ s →
      jsReplaceAllGo pat repl fuel s consumed = s := by
  intro s
  induction s with
  | nil =>
    intro fuel consumed _ _
    cases fuel <;> rfl
  | cons c t ih =>
    intro fuel consumed hlen hmem
    rcases fuel with _ | fuel
    · simp at hlen
    · have hc : ¬ c = '<' := fun hcc => hmem (hcc ▸ List.mem_cons_self c t)
      have hmt : '<' ∉ t := fun hmm => hmem (List.mem_cons_of_mem c hmm)
      rcases pat with _ | ⟨p0, pt⟩
      · simp at hpat
      · have hp0 : p0 = '<' := by simpa using hpat
        subst hp0
        have hpre : ('<' :: pt).isPrefixOf (c :: t) = false := by
          have hbeq : ('<' == c) = false :=
            beq_eq_false_iff_ne.mpr (fun hcc => hc hcc.symm)
          simp only [List.isPrefixOf, hbeq, Bool.false_and]
        show jsReplaceAllGo ('<' :: pt) repl (fuel + 1) (c :: t) consumed = _
        rw [jsReplaceAllGo]
        rw [if_neg (by simp [hpre])]
        rw [ih fuel (consumed ++ [c]) (by simpa using hlen) hmt]

/-- A list is a `isPrefixOf`-prefix of itself followed by anything. -/
lemma isPrefixOf_self_append (l1 l2 : Str) : l1.isPrefixOf (l1 ++ l2) = true := by
  induction l1 with
  | nil => simp [List.isPrefixOf]
  | cons c t ih => simp [List.isPrefixOf, ih]

/-- When the subject is `pre ++ pat ++ post` with the placeholder pattern
occurring only there (no `<` in `pre` or `post`), the scan loop replaces
exactly that one occurrence by the expanded replacement. -/
lemma jsReplaceAllGo_single (pt repl post : Str) (hpost : '<' ∉ post) :
    ∀ (pre : Str) (fuel : ℕ) (consumed : Str),
      '<' ∉ pre →
      pre.length + (pt.length + 1) + post.length ≤ fuel →
      jsReplaceAllGo ('<' :: pt) repl fuel (pre ++ ('<' :: pt) ++ post) consumed
        = pre ++ expandRepl (consumed ++ pre) ('<' :: pt) post repl ++ post := by
  intro pre
  induction pre with
  | nil =>
    intro fuel consumed _ hfuel
    simp only [List.length_nil, List.nil_append] at hfuel ⊢
    rcases fuel with _ | f
    · omega
    · have hpre1 : ('<' :: pt).isPrefixOf (('<' :: pt) ++ post) = true :=
        isPrefixOf_self_append _ _
      have hlen1 : post.length ≤ f := by omega
      rw [show ('<' :: pt) ++ post = '<' :: (pt ++ post) from rfl]
      rw [jsReplaceAllGo]
      rw [if_pos ⟨by simp, hpre1⟩]
      have hdrop : ('<' :: (pt ++ post)).drop ('<' :: pt).length = post := by
        rw [show ('<' :: (pt ++ post)) = ('<' :: pt) ++ post from rfl]
        exact List.drop_left _ _
      rw [hdrop]
      rw [replaceAllGo_no_match ('<' :: pt) repl rfl post f
        (consumed ++ ('<' :: pt)) hlen1 hpost]
      simp
  | cons c pr ih =>
    intro fuel consumed hmem hfuel
    rcases fuel with _ | f
    · simp only [List.length_cons] at hfuel; omega
    · have hc : ¬ c = '<' := fun hcc => hmem (hcc ▸ List.mem_cons_self c pr)
      have hmt : '<' ∉ pr := fun hmm => hmem (List.mem_cons_of_mem c hmm)
      have hbeq : ('<' == c) = false :=
        beq_eq_false_iff_ne.mpr (fun hcc => hc hcc.symm)
      rw [show (c :: pr) ++ ('<' :: pt) ++ post
          = c :: (pr ++ ('<' :: pt) ++ post) from by simp]
      rw [jsReplaceAllGo]
      rw [if_neg (by simp only [List.isPrefixOf, hbeq, Bool.false_and]; simp)]
      rw [ih f (consumed ++ [c]) hmt
        (by simp only [List.length_cons] at hfuel; omega)]
      simp

/-- `s.replace(new RegExp('<<PH>>', 'g'), repl)` on a subject with exactly one
occurrence of the placeholder substitutes the expanded replacement there. -/
lemma jsReplaceAll_single (pt repl pre post : Str) (hpre : '<' ∉ pre)
    (hpost : '<' ∉ post) :
    jsReplaceAll ('<' :: pt) repl (pre ++ ('<' :: pt) ++ post)
      = pre ++ expandRepl pre ('<' :: pt) post repl ++ post := by
  unfold jsReplaceAll
  rw [jsReplaceAllGo_single pt repl post hpost pre _ [] hpre
    (le_of_eq (by simp; omega))]
  simp

end LatexService

set_option maxRecDepth 40000 in
/-- C2, counterexample: the field value `` $` `` — two ordinary characters a
user can type — substituted for `<<NAME>>` in a template whose preceding text
is a backslash and a space.  Because `populateTemplate` hands the escaped
value to `String.replace` as a replacement string, its `` $` `` becomes the
active "text before the match" pattern: the populated source is `\ \\ `, which
is not the escaped value in context, has lost the `$` entirely, and contains a
backslash followed by a space — a raw control character in no escape
sequence. -/
theorem C2_escaping_counterexample :
    LatexService.populateTemplate "\\ <<NAME>>".toList c2cv defaultOpts
        = ['\\', ' ', '\\', '\\', ' ']
    ∧ LatexService.populateTemplate "\\ <<NAME>>".toList c2cv defaultOpts
        ≠ "\\ ".toList ++ LatexService.escapeLatex "$`".toList
    ∧ LatexService.bsEscaped
        (LatexService.populateTemplate "\\ <<NAME>>".toList c2cv defaultOpts)
        = false := by
  refine ⟨by decide, by decide, by decide⟩

/-- C2, amended: provided the substituted value contains neither `` $` `` nor
`$'` as a substring (so the escaped value is inert as a `replace` replacement
string), a placeholder occurrence with no other `<` around it is replaced by
exactly the escaped value, and the escaped value contains only escaped forms:
every `&`, `%`, `$` in it is preceded by `\`, and every `\` in it starts one
of the escaper's own output sequences. -/
theorem C2_escaping_amended (v pre post pt : Str)
    (hv : LatexService.noDollarTick v = true)
    (hpre : '<' ∉ pre) (hpost : '<' ∉ post) :
    LatexService.jsReplaceAll ('<' :: pt) (LatexService.escapeLatex v)
        (pre ++ ('<' :: pt) ++ post)
      = pre ++ LatexService.escapeLatex v ++ post
    ∧ LatexService.ctlEscaped (LatexService.escapeLatex v) = true
    ∧ LatexService.bsEscaped (LatexService.escapeLatex v) = true := by
  refine ⟨?_, LatexService.ctl_escape v none, LatexService.bs_escape v⟩
  rw [LatexService.jsReplaceAll_single pt _ pre post hpre hpost]
  rw [LatexService.expand_literal pre ('<' :: pt) post _
    (LatexService.af_escape v false hv)]

/-- C2, witness for the amended theorem at a concrete value, prefix and
suffix. -/
theorem C2_escaping_amended_witness :
    LatexService.jsReplaceAll ('<' :: "<NAME>>".toList)
        (LatexService.escapeLatex "a & b $ c".toList)
        ("x ".toList ++ ('<' :: "<NAME>>".toList) ++ " y".toList)
      = "x ".toList ++ LatexService.escapeLatex "a & b $ c".toList ++ " y".toList
    ∧ LatexService.ctlEscaped (LatexService.escapeLatex "a & b $ c".toList) = true
    ∧ LatexService.bsEscaped (LatexService.escapeLatex "a & b $ c".toList) = true :=
  C2_escaping_amended "a & b $ c".toList "x ".toList " y".toList "<NAME>>".toList
    (by decide) (by decide) (by decide)

/-- C3, counterexample: the template name "unknown-template" consists only of
characters the sanitizer keeps, so it survives sanitization unchanged instead
of falling back to "modern", and template population then fails with a
template-not-found error instead of rendering the default template. -/
theorem C3_template_fallback_counterexample :
    LatexService.sanitizeTemplateName (some "unknown-template".toList)
        = "unknown-template".toList
    ∧ LatexService.sanitizeTemplateName (some "unknown-template".toList)
        ≠ "modern".toList
    ∧ LatexService.populateTemplateChecked LatexService.specTemplates
        (LatexService.sanitizeTemplateName (some "unknown-template".toList))
        emptyCV defaultOpts
      = Except.error
          ("Failed to populate template: Template not found: ".toList
            ++ "unknown-template".toList) := by
  refine ⟨by decide, by decide, rfl⟩

/-- C3, amended: the sanitizer has no allow-list.  A missing, falsy or
fully-stripped template name falls back to "modern" and rendering proceeds
with the default template; any name keeping at least one allowed character
survives sanitization, and a surviving name outside the template store makes
population fail rather than fall back (as the counterexample shows). -/
theorem C3_template_fallback_amended (name : Option Str)
    (cv : LatexService.CVData) (opts : LatexService.RenderOptions)
    (h : name = none ∨ name = some [] ∨
      ∃ s, name = some s ∧ lowerStr (s.filter LatexService.allowedTN) = []) :
    LatexService.sanitizeTemplateName name = "modern".toList
    ∧ LatexService.populateTemplateChecked LatexService.specTemplates
        (LatexService.sanitizeTemplateName name) cv opts
      = Except.ok (LatexService.populateTemplate [] cv opts) := by
  have hs : LatexService.sanitizeTemplateName name = "modern".toList := by
    rcases h with h | h | ⟨s, h1, h2⟩
    · rw [h]; rfl
    · rw [h]; rfl
    · rw [h1]
      simp only [LatexService.sanitizeTemplateName]
      by_cases hse : s = []
      · simp [hse]
      · rw [if_neg hse]
        simp [h2]
  refine ⟨hs, ?_⟩
  rw [hs]
  rfl

/-- C3, witness for the amended theorem at a concrete fully-stripped name. -/
theorem C3_template_fallback_amended_witness :
    LatexService.sanitizeTemplateName (some "!!!".toList) = "modern".toList
    ∧ LatexService.populateTemplateChecked LatexService.specTemplates
        (LatexService.sanitizeTemplateName (some "!!!".toList))
        emptyCV defaultOpts
      = Except.ok (LatexService.populateTemplate [] emptyCV defaultOpts) :=
  C3_template_fallback_amended (some "!!!".toList) emptyCV defaultOpts
    (Or.inr (Or.inr ⟨"!!!".toList, rfl, by decide⟩))

/-- C10.  In `createReplacements` the EXPERIENCE value is the raw
`formatExperience` output — the formatters run first and `populateTemplate`
escapes the whole formatted value afterwards.  Every replacement value, once
escaped, has each of its backslashes (including those of the formatter's own
`\cventry`/`\item` markup) inside one of the escaper's output sequences, and
for a value that is inert as a replacement string the placeholder occurrence
is replaced by exactly the escaped formatted value. -/
theorem C10_escape_after_format (cv : LatexService.CVData)
    (opts : LatexService.RenderOptions) (pre post : Str)
    (hpre : '<' ∉ pre) (hpost : '<' ∉ post)
    (hnd : LatexService.noDollarTick
      (LatexService.formatExperience cv.experience) = true) :
    ((LatexService.createReplacements cv opts).filter
        (fun pv => pv.1 = "EXPERIENCE".toList)).map Prod.snd
      = [LatexService.formatExperience cv.experience]
    ∧ (∀ pv ∈ LatexService.createReplacements cv opts,
        LatexService.bsEscaped (LatexService.escapeLatex pv.2) = true)
    ∧ LatexService.jsReplaceAll ("<<EXPERIENCE>>".toList)
        (LatexService.escapeLatex (LatexService.formatExperience cv.experience))
        (pre ++ "<<EXPERIENCE>>".toList ++ post)
      = pre ++ LatexService.escapeLatex
          (LatexService.formatExperience cv.experience) ++ post := by
  refine ⟨rfl, fun pv _ => LatexService.bs_escape pv.2, ?_⟩
  rw [show ("<<EXPERIENCE>>".toList : Str)
    = '<' :: "<EXPERIENCE>>".toList from rfl]
  rw [LatexService.jsReplaceAll_single _ _ pre post hpre hpost]
  rw [LatexService.expand_literal pre _ post _
    (LatexService.af_escape _ false hnd)]

set_option maxRecDepth 40000 in
/-- C10, witness at a CV with one work-experience entry. -/
theorem C10_escape_after_format_witness :
    ((LatexService.createReplacements c10cv defaultOpts).filter
        (fun pv => pv.1 = "EXPERIENCE".toList)).map Prod.snd
      = [LatexService.formatExperience c10cv.experience]
    ∧ (∀ pv ∈ LatexService.createReplacements c10cv defaultOpts,
        LatexService.bsEscaped (LatexService.escapeLatex pv.2) = true)
    ∧ LatexService.jsReplaceAll ("<<EXPERIENCE>>".toList)
        (LatexService.escapeLatex
          (LatexService.formatExperience c10cv.experience))
        ("A ".toList ++ "<<EXPERIENCE>>".toList ++ " B".toList)
      = "A ".toList ++ LatexService.escapeLatex
          (LatexService.formatExperience c10cv.experience) ++ " B".toList :=
  C10_escape_after_format c10cv defaultOpts "A ".toList " B".toList
    (by decide) (by decide) (by decide)

set_option maxRecDepth 200000 in
/-- C10, counterexample to the claim's universal conclusion: a CV whose
experience bullet contains `` $` `` formats and escapes to a value that is
itself fully escaped, yet the populated document differs from the escaped
value in context and fails `bsEscaped` — and since the template contains no
backslash at all, every backslash of the populated source, the unescaped one
included, originates from the replacement value. -/
theorem C10_escape_counterexample :
    LatexService.bsEscaped
        (LatexService.populateTemplate "X <<EXPERIENCE>>".toList c10bad
          defaultOpts) = false
    ∧ LatexService.populateTemplate "X <<EXPERIENCE>>".toList c10bad defaultOpts
        ≠ "X ".toList
          ++ LatexService.escapeLatex
              (LatexService.formatExperience c10bad.experience)
    ∧ ('\\' ∉ "X <<EXPERIENCE>>".toList)
    ∧ LatexService.bsEscaped
        (LatexService.escapeLatex
          (LatexService.formatExperience c10bad.experience)) = true := by
  refine ⟨by decide, by decide, by decide, by decide⟩
